import Mathlib

/-!
# Post-Scheduler-UI — verification of the reminder-scheduling core

Shallow embedding of the reminder-scheduling and notification-dedup engine
of `src/pages/Home.tsx` (the live component mounted by `App`).

Modelling conventions:
* Timestamps are `Int` milliseconds since the epoch (`Date.getTime()`).
* Runtime post records are modelled with `Option` fields for `id`, `text`,
  `time` and `color`, because `JSON.parse` performs no validation and these
  fields can genuinely be absent at runtime (`new Date(undefined)` yields an
  invalid date, modelled as `time = none`).  The `notified` field is a plain
  `Bool`: every code path treats an absent `notified` exactly like `false`
  (JS truthiness), so `false` soundly stands for both.
* The global `shownToastIds : Set<string>` (the Notification Ledger) is a
  `List (Option String)` used only through membership, threaded explicitly
  through the tick.
* Effects of one scheduler tick (`checkAlarms`) are reified: the toast/audio
  calls become an `Announcement` list and the mutation order of the ledger
  insert versus the sink invocation is recorded as an `Event` trace.
* Randomness (`Math.random` colour draws) is an injected oracle
  `pick : Nat → String` giving the colour drawn for the i-th record;
  `uuidv4()` and the creation-time colour draw are injected parameters.
* `localStorage.getItem` + `JSON.parse` is modelled as
  `Option (Except Unit (List Post))`: `none` = no stored value,
  `some (Except.error ())` = the `try` block threw (malformed JSON),
  `some (Except.ok l)` = parsed records.
-/

namespace PostScheduler

/-- The fixed colour palette `COLORS` of `Home.tsx`. -/
def COLORS : List String :=
  ["bg-indigo-500", "bg-pink-500", "bg-emerald-500", "bg-amber-500", "bg-purple-500"]

/-- A post record as it exists at runtime.  `id`, `text`, `time`, `color` may be
absent because stored JSON is never validated; `time = none` also stands for an
unparseable date (`NaN` timestamp). -/
structure Post where
  id : Option String
  text : Option String
  time : Option Int
  notified : Bool
  color : Option String
deriving DecidableEq, Repr

/-- `Math.floor((postTime.getTime() - now.getTime()) / 60000)` — floor division
on integer milliseconds. -/
def minutesDiff (postTime now : Int) : Int :=
  Int.fdiv (postTime - now) 60000

/-- The firing condition of one tick for one post
(`minutesDiff === 1 && !shownToastIds.has(post.id)` in `checkAlarms`).
A missing/invalid `time` gives `minutesDiff = NaN`, and `NaN === 1` is false. -/
def fire (now : Int) (ledger : List (Option String)) (p : Post) : Bool :=
  (match p.time with
   | some t => decide (minutesDiff t now = 1)
   | none => false)
  && !(decide (p.id ∈ ledger))

/-- What the Notification Sink receives from `checkAlarms`: the toast is built
from `post.text` and `post.color`, and the audio `play()` is attempted
unconditionally (there is no visibility check in `checkAlarms`). -/
structure Announcement where
  postId : Option String
  text : Option String
  color : Option String
  audioAttempted : Bool
deriving DecidableEq, Repr

/-- The announcement emitted for a firing post. -/
def mkAnn (p : Post) : Announcement :=
  ⟨p.id, p.text, p.color, true⟩

/-- Observable side effects of a tick, in program order:
`shownToastIds.add(post.id)` and the sink invocation (`toast.custom`). -/
inductive Event where
  | ledgerAdd (id : Option String)
  | announce (id : Option String)
deriving DecidableEq, Repr

/-- Result of the per-post loop of `checkAlarms`.  `newIds` are the ids added
to the ledger by this tick, in firing order. -/
structure GoResult where
  posts : List Post
  newIds : List (Option String)
  anns : List Announcement
  trace : List Event
deriving DecidableEq, Repr

/-- The `prevPosts.map(...)` loop of `checkAlarms`: the ledger is consulted and
mutated inside the loop (`shownToastIds.has` / `.add`), so it is threaded
through the recursion; the `add` happens before the sink call, recorded in the
trace. -/
def go (now : Int) : List Post → List (Option String) → GoResult
  | [], _ => ⟨[], [], [], []⟩
  | p :: rest, ledger =>
    if fire now ledger p then
      let r := go now rest (ledger ++ [p.id])
      ⟨{ p with notified := true } :: r.posts, p.id :: r.newIds,
        mkAnn p :: r.anns,
        Event.ledgerAdd p.id :: Event.announce p.id :: r.trace⟩
    else
      let r := go now rest ledger
      ⟨p :: r.posts, r.newIds, r.anns, r.trace⟩

/-- Full outcome of one scheduler tick. -/
structure TickResult where
  posts : List Post
  ledger : List (Option String)
  anns : List Announcement
  trace : List Event
deriving DecidableEq, Repr

/-- One scheduler tick (`checkAlarms` in `Home.tsx`).  `visible` is the
environment's `document.visibilityState === "visible"`; this version of the
code never consults it.  The final
`JSON.stringify(updatedPosts) !== JSON.stringify(prevPosts)` guard is the
value-equality test on the post list. -/
def checkAlarms (now : Int) (visible : Bool) (posts : List Post)
    (ledger : List (Option String)) : TickResult :=
  let r := go now posts ledger
  ⟨if r.posts = posts then posts else r.posts,
    ledger ++ r.newIds, r.anns, r.trace⟩

/-- The per-post update a tick performs, parameterised by the ledger the tick
started from (meaningful when post ids are unique). -/
def step (now : Int) (ledger : List (Option String)) (p : Post) : Post :=
  if fire now ledger p then { p with notified := true } else p

/-- The event trace produced by a given list of firing posts. -/
def traceOf (l : List Post) : List Event :=
  l.foldr (fun p acc => Event.ledgerAdd p.id :: Event.announce p.id :: acc) []

/-- JS `p.color || d`: `undefined`, `null` and `""` are falsy. -/
def jsOrColor (c : Option String) (d : String) : String :=
  match c with
  | none => d
  | some s => if s = "" then d else s

/-- The `parsed.map` step of `loadPosts`: assign a colour (the i-th random
draw `pick i` when the stored one is absent) and force `notified := false`. -/
def withColors (pick : Nat → String) : Nat → List Post → List Post
  | _, [] => []
  | i, p :: rest =>
      { p with color := some (jsOrColor p.color (pick i)), notified := false }
        :: withColors pick (i + 1) rest

/-- `new Date(p.time) > now`: false when the date is invalid (`NaN`). -/
def futureB (now : Int) (p : Post) : Bool :=
  match p.time with
  | some t => decide (now < t)
  | none => false

/-- `new Date(post.time) <= now`: false when the date is invalid (`NaN`). -/
def pastB (now : Int) (p : Post) : Bool :=
  match p.time with
  | some t => decide (t ≤ now)
  | none => false

/-- Ascending-time comparator of the `.sort` in `loadPosts`.  The `getD`
default is irrelevant: the list being sorted has already been filtered to
valid future times. -/
def leTime (a b : Post) : Prop :=
  a.time.getD 0 ≤ b.time.getD 0

instance : DecidableRel leTime := fun a b => by
  unfold leTime
  infer_instance

/-- Outcome of the load effect: the post list set by `setPosts` (initial state
`[]` when `setPosts` is never reached) and whether the corruption warning
toast fired. -/
structure LoadResult where
  posts : List Post
  warned : Bool
deriving DecidableEq, Repr

/-- `loadPosts` of `Home.tsx`: parse, default colours, reset `notified`,
keep only strictly-future posts, sort ascending by time.  Malformed storage is
caught: the list stays empty and `toast.error("Failed to load saved posts")`
fires. -/
def loadPosts (pick : Nat → String) (stored : Option (Except Unit (List Post)))
    (now : Int) : LoadResult :=
  match stored with
  | none => ⟨[], false⟩
  | some (Except.error _) => ⟨[], true⟩
  | some (Except.ok parsed) =>
      let wc := withColors pick 0 parsed
      let upcoming := (wc.filter (futureB now)).insertionSort leTime
      ⟨upcoming, false⟩

/-- The persisted payload after the debounced
`localStorage.setItem("scheduled-posts", JSON.stringify(posts))`: storage now
holds a parseable serialization of exactly these records, so a subsequent
`JSON.parse` yields them back. -/
def save (posts : List Post) : Option (Except Unit (List Post)) :=
  some (Except.ok posts)

/-- The `upcomingPosts` partition computed at render time. -/
def upcomingPosts (now : Int) (posts : List Post) : List Post :=
  posts.filter (futureB now)

/-- The `pastPosts` partition computed at render time. -/
def pastPosts (now : Int) (posts : List Post) : List Post :=
  posts.filter (pastB now)

/-- JS `input.trim()`: strip leading and trailing whitespace (executable model
of `String.prototype.trim` over the character list). -/
def jsTrim (s : String) : String :=
  String.mk (((s.data.dropWhile Char.isWhitespace).reverse.dropWhile
    Char.isWhitespace).reverse)

/-- Outcome of `handleSubmit`: resulting post list, the toast message shown,
and whether the submission was accepted. -/
structure SubmitResult where
  posts : List Post
  message : String
  ok : Bool
deriving DecidableEq, Repr

/-- `handleSubmit` of `Home.tsx`.  `time` is the picker value (`null` when
unset), `now` the clock at the `new Date()` comparison, `newId` the `uuidv4()`
draw and `newColor` the random palette draw used in create mode. -/
def handleSubmit (input : String) (time : Option Int) (now : Int)
    (editingPostId : Option String) (newId : String) (newColor : String)
    (posts : List Post) : SubmitResult :=
  if jsTrim input = "" then
    ⟨posts, "Post content cannot be empty", false⟩
  else
    match time with
    | none => ⟨posts, "Please select a date and time", false⟩
    | some t =>
      if t < now then
        ⟨posts, "Please select a future date and time", false⟩
      else
        match editingPostId with
        | some eid =>
            ⟨posts.map (fun p =>
                if p.id = some eid then
                  { p with text := some input, time := some t, notified := false }
                else p),
              "Post updated successfully", true⟩
        | none =>
            ⟨{ id := some newId, text := some input, time := some t,
                notified := false, color := some newColor } :: posts,
              "Post scheduled successfully", true⟩

/-- Sample armed post: scheduled at t=100000ms; at `now = 31000` the remaining
69s give `minutesDiff = 1` (Scenario A of the spec). -/
def pA : Post := ⟨some "a", some "ship release", some 100000, false, some "bg-indigo-500"⟩

/-- Sample post already flagged `notified := true` but absent from the ledger. -/
def pN : Post := ⟨some "n", some "already flagged", some 100000, true, some "bg-pink-500"⟩

/-- Sample stored record whose time is 5 minutes before the load clock
(load clock 1000000). -/
def pPast : Post := ⟨some "b", some "old", some 700000, false, some "bg-pink-500"⟩

/-- Sample stored record with a past time, for the round-trip counterexample. -/
def pX : Post := ⟨some "x", some "t", some 500, false, some "bg-amber-500"⟩

/-- Sample stored record missing `id`, `text` and `colorTag` but with a valid
future time (load clock 1000000). -/
def rNoId : Post := ⟨none, none, some 2000000, false, none⟩

/-- A fixed colour oracle for concrete evaluations. -/
def pick0 : Nat → String := fun _ => "bg-indigo-500"

theorem fire_congr (now : Int) {l₁ l₂ : List (Option String)} (q : Post)
    (h : q.id ∈ l₁ ↔ q.id ∈ l₂) : fire now l₁ q = fire now l₂ q := by
  unfold fire
  rw [decide_eq_decide.mpr h]

theorem fire_notified (now : Int) (l : List (Option String)) (p : Post) (b : Bool) :
    fire now l { p with notified := b } = fire now l p := rfl

theorem fire_append_false (now : Int) (p : Post) (l extra : List (Option String))
    (h : fire now l p = false) : fire now (l ++ extra) p = false := by
  by_cases hm : p.id ∈ l
  · have hmem : p.id ∈ l ++ extra := List.mem_append.mpr (Or.inl hm)
    unfold fire
    rw [decide_eq_true hmem]
    simp
  · unfold fire at h ⊢
    rw [decide_eq_false hm] at h
    simp only [Bool.not_false, Bool.and_true] at h
    rw [h]
    simp

theorem go_congr (now : Int) : ∀ (posts : List Post) (l₁ l₂ : List (Option String)),
    (∀ q ∈ posts, (q.id ∈ l₁ ↔ q.id ∈ l₂)) → go now posts l₁ = go now posts l₂
  | [], _, _, _ => rfl
  | p :: rest, l₁, l₂, h => by
    have hf : fire now l₁ p = fire now l₂ p := fire_congr now p (h p (by simp))
    have hrest : ∀ q ∈ rest, (q.id ∈ l₁ ↔ q.id ∈ l₂) := fun q hq => h q (by simp [hq])
    by_cases hc : fire now l₂ p
    · have h1 : ∀ q ∈ rest, (q.id ∈ l₁ ++ [p.id] ↔ q.id ∈ l₂ ++ [p.id]) := by
        intro q hq
        simp [List.mem_append, hrest q hq]
      simp [go, hf, hc, go_congr now rest (l₁ ++ [p.id]) (l₂ ++ [p.id]) h1]
    · simp [go, hf, hc, go_congr now rest l₁ l₂ hrest]

theorem go_closed (now : Int) : ∀ (posts : List Post) (ledger : List (Option String)),
    (posts.map Post.id).Nodup →
    go now posts ledger =
      ⟨posts.map (step now ledger),
        (posts.filter (fire now ledger)).map Post.id,
        (posts.filter (fire now ledger)).map mkAnn,
        traceOf (posts.filter (fire now ledger))⟩
  | [], ledger, _ => rfl
  | p :: rest, ledger, h => by
    rw [List.map_cons, List.nodup_cons] at h
    have hid : p.id ∉ rest.map Post.id := h.1
    have hnd : (rest.map Post.id).Nodup := h.2
    have ih := go_closed now rest ledger hnd
    by_cases hf : fire now ledger p
    · have hcong : go now rest (ledger ++ [p.id]) = go now rest ledger := by
        apply go_congr
        intro q hq
        constructor
        · intro hm
          rcases List.mem_append.mp hm with h1 | h1
          · exact h1
          · exfalso
            apply hid
            rw [← List.mem_singleton.mp h1]
            exact List.mem_map_of_mem Post.id hq
        · intro hm
          exact List.mem_append.mpr (Or.inl hm)
      simp [go, hf, hcong, ih, step, List.filter_cons, traceOf]
    · simp [go, hf, ih, step, List.filter_cons, traceOf]

theorem checkAlarms_posts_eq (now : Int) (v : Bool) (posts : List Post)
    (ledger : List (Option String)) :
    (checkAlarms now v posts ledger).posts = (go now posts ledger).posts := by
  by_cases h : (go now posts ledger).posts = posts
  · simp [checkAlarms, h]
  · simp [checkAlarms, h]

theorem checkAlarms_ledger_eq (now : Int) (v : Bool) (posts : List Post)
    (ledger : List (Option String)) :
    (checkAlarms now v posts ledger).ledger = ledger ++ (go now posts ledger).newIds := rfl

theorem checkAlarms_anns_eq (now : Int) (v : Bool) (posts : List Post)
    (ledger : List (Option String)) :
    (checkAlarms now v posts ledger).anns = (go now posts ledger).anns := rfl

theorem checkAlarms_trace_eq (now : Int) (v : Bool) (posts : List Post)
    (ledger : List (Option String)) :
    (checkAlarms now v posts ledger).trace = (go now posts ledger).trace := rfl

theorem go_frame (now : Int) : ∀ (posts : List Post) (ledger : List (Option String)),
    List.Forall₂ (fun q p => q = p ∨ q = { p with notified := true })
      (go now posts ledger).posts posts
  | [], _ => by simp [go]
  | p :: rest, ledger => by
    by_cases hf : fire now ledger p
    · simp only [go, if_pos hf]
      exact List.Forall₂.cons (Or.inr rfl) (go_frame now rest (ledger ++ [p.id]))
    · simp only [go, if_neg hf]
      exact List.Forall₂.cons (Or.inl rfl) (go_frame now rest ledger)

theorem go_blocked (now : Int) : ∀ (posts : List Post) (ledger : List (Option String)),
    (∀ p ∈ posts, fire now ledger p = false) → go now posts ledger = ⟨posts, [], [], []⟩
  | [], _, _ => rfl
  | p :: rest, ledger, h => by
    have hp := h p (by simp)
    simp [go, hp, go_blocked now rest ledger (fun q hq => h q (by simp [hq]))]

theorem go_out_blocked (now : Int) : ∀ (posts : List Post) (ledger : List (Option String)),
    ∀ q ∈ (go now posts ledger).posts,
      fire now (ledger ++ (go now posts ledger).newIds) q = false
  | [], ledger => by simp [go]
  | p :: rest, ledger => by
    by_cases hf : fire now ledger p
    · intro q hq
      simp only [go, if_pos hf] at hq ⊢
      rcases List.mem_cons.mp hq with rfl | hq
      · have hmem : (Post.id { p with notified := true }) ∈
            ledger ++ (Post.id p) :: (go now rest (ledger ++ [p.id])).newIds := by
          simp
        unfold fire
        rw [decide_eq_true hmem]
        simp
      · have hrec := go_out_blocked now rest (ledger ++ [p.id]) q hq
        rw [List.append_assoc] at hrec
        simpa using hrec
    · intro q hq
      simp only [go, if_neg hf] at hq ⊢
      rcases List.mem_cons.mp hq with rfl | hq
      · exact fire_append_false now q ledger _ (Bool.eq_false_iff.mpr hf)
      · exact go_out_blocked now rest ledger q hq

theorem go_anns (now : Int) : ∀ (posts : List Post) (ledger : List (Option String)),
    ∀ a ∈ (go now posts ledger).anns,
      a.audioAttempted = true ∧
      a.postId ∈ (go now posts ledger).newIds ∧
      (∃ q ∈ (go now posts ledger).posts, q.id = a.postId ∧ q.notified = true) ∧
      (∃ p ∈ posts, a = mkAnn p)
  | [], ledger => by simp [go]
  | p :: rest, ledger => by
    by_cases hf : fire now ledger p
    · intro a ha
      simp only [go, if_pos hf] at ha ⊢
      rcases List.mem_cons.mp ha with rfl | ha
      · refine ⟨rfl, by simp [mkAnn], ⟨{ p with notified := true }, by simp, rfl, rfl⟩,
          ⟨p, by simp, rfl⟩⟩
      · obtain ⟨h1, h2, ⟨q, hq, hq1, hq2⟩, ⟨p', hp', hp'2⟩⟩ :=
          go_anns now rest (ledger ++ [p.id]) a ha
        exact ⟨h1, by simp [h2], ⟨q, by simp [hq], hq1, hq2⟩, ⟨p', by simp [hp'], hp'2⟩⟩
    · intro a ha
      simp only [go, if_neg hf] at ha ⊢
      obtain ⟨h1, h2, ⟨q, hq, hq1, hq2⟩, ⟨p', hp', hp'2⟩⟩ := go_anns now rest ledger a ha
      exact ⟨h1, h2, ⟨q, by simp [hq], hq1, hq2⟩, ⟨p', by simp [hp'], hp'2⟩⟩

theorem go_notified_irrelevant (now : Int) (b : Bool) :
    ∀ (posts : List Post) (ledger : List (Option String)),
      (go now (posts.map (fun p => { p with notified := b })) ledger).anns
          = (go now posts ledger).anns ∧
      (go now (posts.map (fun p => { p with notified := b })) ledger).newIds
          = (go now posts ledger).newIds ∧
      (go now (posts.map (fun p => { p with notified := b })) ledger).trace
          = (go now posts ledger).trace
  | [], _ => ⟨rfl, rfl, rfl⟩
  | p :: rest, ledger => by
    have hf : fire now ledger { p with notified := b } = fire now ledger p := rfl
    by_cases hc : fire now ledger p
    · obtain ⟨h1, h2, h3⟩ := go_notified_irrelevant now b rest (ledger ++ [p.id])
      simp only [List.map_cons, go, hf, if_pos hc]
      exact ⟨by simp [mkAnn, h1], by simp [h2], by simp [h3]⟩
    · obtain ⟨h1, h2, h3⟩ := go_notified_irrelevant now b rest ledger
      simp only [List.map_cons, go, hf, if_neg hc]
      exact ⟨h1, h2, h3⟩

theorem withColors_mem (pick : Nat → String) :
    ∀ (l : List Post) (i : Nat) (p : Post), p ∈ l →
      ∃ j q, q ∈ withColors pick i l ∧ q.id = p.id ∧ q.text = p.text ∧
        q.time = p.time ∧ q.notified = false ∧
        q.color = some (jsOrColor p.color (pick j))
  | [], _, _, h => absurd h (by simp)
  | p' :: rest, i, p, h => by
    rcases List.mem_cons.mp h with rfl | h
    · exact ⟨i, { p with color := some (jsOrColor p.color (pick i)), notified := false },
        by simp [withColors], rfl, rfl, rfl, rfl, rfl⟩
    · obtain ⟨j, q, hq, h1, h2, h3, h4, h5⟩ := withColors_mem pick rest (i + 1) p h
      exact ⟨j, q, by simp [withColors, hq], h1, h2, h3, h4, h5⟩

theorem withColors_forall (pick : Nat → String) :
    ∀ (l : List Post) (i : Nat), ∀ q ∈ withColors pick i l,
      q.notified = false ∧ q.color.isSome = true ∧
      ∃ p ∈ l, q.id = p.id ∧ q.text = p.text ∧ q.time = p.time
  | [], _, q, h => absurd h (by simp [withColors])
  | p' :: rest, i, q, h => by
    rcases List.mem_cons.mp h with rfl | h
    · exact ⟨rfl, rfl, p', by simp, rfl, rfl, rfl⟩
    · obtain ⟨h1, h2, p, hp, h3, h4, h5⟩ := withColors_forall pick rest (i + 1) q h
      exact ⟨h1, h2, p, by simp [hp], h3, h4, h5⟩

theorem loadPosts_ok_posts (pick : Nat → String) (parsed : List Post) (now : Int) :
    (loadPosts pick (some (Except.ok parsed)) now).posts
      = ((withColors pick 0 parsed).filter (futureB now)).insertionSort leTime := rfl

theorem loadPosts_mem_iff (pick : Nat → String) (parsed : List Post) (now : Int)
    (q : Post) :
    q ∈ (loadPosts pick (some (Except.ok parsed)) now).posts ↔
      q ∈ withColors pick 0 parsed ∧ futureB now q = true := by
  rw [loadPosts_ok_posts]
  rw [(List.perm_insertionSort leTime _).mem_iff]
  simp [List.mem_filter]

theorem fire_iff (now : Int) (ledger : List (Option String)) (p : Post) :
    fire now ledger p = true ↔
      ((∃ t, p.time = some t ∧ minutesDiff t now = 1) ∧ p.id ∉ ledger) := by
  cases ht : p.time with
  | none => simp [fire, ht]
  | some t => simp [fire, ht]

theorem traceOf_pair : ∀ (l : List Post) (p : Post), p ∈ l →
    ∃ k, (traceOf l)[k]? = some (Event.ledgerAdd p.id) ∧
      (traceOf l)[k + 1]? = some (Event.announce p.id)
  | [], p, h => absurd h (by simp)
  | p' :: rest, p, h => by
    have hunf : traceOf (p' :: rest)
        = Event.ledgerAdd p'.id :: Event.announce p'.id :: traceOf rest := rfl
    rcases List.mem_cons.mp h with rfl | h
    · exact ⟨0, by rw [hunf]; rfl, by rw [hunf]; simp⟩
    · obtain ⟨k, h1, h2⟩ := traceOf_pair rest p h
      refine ⟨k + 2, ?_, ?_⟩
      · rw [hunf]
        simpa using h1
      · rw [hunf]
        simpa using h2

/-- C1: a scheduler tick announces a post `p` (sending its text and colour to
the sink) and flips `p.notified` to `true` exactly when
`floor((p.time - now) / 60000) = 1` and `p.id` is absent from the Notification
Ledger; on firing, the ledger insertion is traced strictly before the sink
invocation.  Post ids are assumed unique, the repository invariant. -/
theorem tick_fire_characterization (now : Int) (v : Bool) (posts : List Post)
    (ledger : List (Option String)) (hnd : (posts.map Post.id).Nodup) :
    (∀ p : Post, fire now ledger p = true ↔
      ((∃ t, p.time = some t ∧ minutesDiff t now = 1) ∧ p.id ∉ ledger)) ∧
    (checkAlarms now v posts ledger).posts = posts.map (step now ledger) ∧
    (∀ p ∈ posts, fire now ledger p = true ↔
      mkAnn p ∈ (checkAlarms now v posts ledger).anns) ∧
    (∀ p ∈ posts, fire now ledger p = true →
      ∃ k, (checkAlarms now v posts ledger).trace[k]? = some (Event.ledgerAdd p.id) ∧
        (checkAlarms now v posts ledger).trace[k + 1]? = some (Event.announce p.id)) := by
  have hclosed := go_closed now posts ledger hnd
  refine ⟨fun p => fire_iff now ledger p, ?_, ?_, ?_⟩
  · rw [checkAlarms_posts_eq, hclosed]
  · intro p hp
    rw [checkAlarms_anns_eq, hclosed]
    constructor
    · intro hf
      exact List.mem_map_of_mem mkAnn (List.mem_filter.mpr ⟨hp, hf⟩)
    · intro hmem
      obtain ⟨q, hqf, hmk⟩ := List.mem_map.mp hmem
      obtain ⟨hqmem, hqfire⟩ := List.mem_filter.mp hqf
      have hqid : q.id = p.id := congrArg Announcement.postId hmk
      have : q = p := List.inj_on_of_nodup_map hnd hqmem hp hqid
      rw [← this]
      exact hqfire
  · intro p hp hf
    rw [checkAlarms_trace_eq, hclosed]
    exact traceOf_pair _ p (List.mem_filter.mpr ⟨hp, hf⟩)

/-- Witness for C1 at a concrete input: the Scenario-A post (remaining 69 s at
the tick) fires, is announced with its text and colour, and is marked
notified. -/
theorem tick_fire_characterization_witness :
    mkAnn pA ∈ (checkAlarms 31000 true [pA] []).anns ∧
    (checkAlarms 31000 true [pA] []).posts = [{ pA with notified := true }] := by
  have h := tick_fire_characterization 31000 true [pA] [] (by decide)
  constructor
  · exact (h.2.2.1 pA (by simp)).mp (by decide)
  · rw [h.2.1]
    decide

/-- C2: the tick is idempotent — running `checkAlarms` twice at the same
wall-clock time with no intervening change emits no announcement on the second
run and leaves the post list (and ledger) unchanged. -/
theorem tick_idempotent (now : Int) (v v' : Bool) (posts : List Post)
    (ledger : List (Option String)) :
    (checkAlarms now v' (checkAlarms now v posts ledger).posts
        (checkAlarms now v posts ledger).ledger).anns = [] ∧
    (checkAlarms now v' (checkAlarms now v posts ledger).posts
        (checkAlarms now v posts ledger).ledger).posts
      = (checkAlarms now v posts ledger).posts ∧
    (checkAlarms now v' (checkAlarms now v posts ledger).posts
        (checkAlarms now v posts ledger).ledger).ledger
      = (checkAlarms now v posts ledger).ledger := by
  have hblocked : ∀ q ∈ (checkAlarms now v posts ledger).posts,
      fire now (checkAlarms now v posts ledger).ledger q = false := by
    rw [checkAlarms_posts_eq, checkAlarms_ledger_eq]
    exact go_out_blocked now posts ledger
  have hgo := go_blocked now (checkAlarms now v posts ledger).posts
    (checkAlarms now v posts ledger).ledger hblocked
  refine ⟨?_, ?_, ?_⟩
  · rw [checkAlarms_anns_eq, hgo]
  · rw [checkAlarms_posts_eq, hgo]
  · rw [checkAlarms_ledger_eq, hgo]
    simp

/-- C10: a tick never inserts, removes or reorders posts; it preserves `id`,
`text`, `time` and `color` of every post, and the only field it may change is
`notified`, only from `false` to `true`. -/
theorem tick_frame (now : Int) (v : Bool) (posts : List Post)
    (ledger : List (Option String)) :
    List.Forall₂ (fun q p =>
      q.id = p.id ∧ q.text = p.text ∧ q.time = p.time ∧ q.color = p.color ∧
      (q.notified = p.notified ∨ (p.notified = false ∧ q.notified = true)))
      (checkAlarms now v posts ledger).posts posts := by
  rw [checkAlarms_posts_eq]
  refine (go_frame now posts ledger).imp ?_
  intro q p h
  rcases h with rfl | rfl
  · exact ⟨rfl, rfl, rfl, rfl, Or.inl rfl⟩
  · refine ⟨rfl, rfl, rfl, rfl, ?_⟩
    cases hn : p.notified
    · exact Or.inr ⟨rfl, rfl⟩
    · exact Or.inl (by simp [hn])

/-- Counterexample to C4: a post with `notified = true` whose id is absent
from the Ledger is announced again when its `minutesDiff` is 1 — the tick
never consults the `notified` flag. -/
theorem notified_flag_does_not_block_cex :
    pN.notified = true ∧ pN.id ∉ ([] : List (Option String)) ∧
    (checkAlarms 31000 true [pN] []).anns = [mkAnn pN] :=
  ⟨rfl, by simp, by decide⟩

/-- C4 (amended): in `checkAlarms` only the Ledger check gates announcements;
the `notified` flag is irrelevant — overwriting every post's flag (in
particular with `true`) changes neither the announcements nor the resulting
ledger or effect trace of a tick. -/
theorem tick_ignores_notified_flag (now : Int) (v : Bool) (posts : List Post)
    (ledger : List (Option String)) :
    (checkAlarms now v (posts.map (fun p => { p with notified := true })) ledger).anns
        = (checkAlarms now v posts ledger).anns ∧
    (checkAlarms now v (posts.map (fun p => { p with notified := true })) ledger).ledger
        = (checkAlarms now v posts ledger).ledger ∧
    (checkAlarms now v (posts.map (fun p => { p with notified := true })) ledger).trace
        = (checkAlarms now v posts ledger).trace := by
  obtain ⟨h1, h2, h3⟩ := go_notified_irrelevant now true posts ledger
  refine ⟨h1, ?_, h3⟩
  rw [checkAlarms_ledger_eq, checkAlarms_ledger_eq, h2]

/-- Counterexample to C7: with the viewing surface not visible
(`visible = false`), the tick's announcement still attempts audio playback —
`checkAlarms` has no visibility guard. -/
theorem audio_attempted_when_hidden_cex :
    ((checkAlarms 31000 false [pA] []).anns.map Announcement.audioAttempted)
      = [true] := by
  decide

/-- C7 (amended): the live tick ignores visibility entirely (audio is
attempted unconditionally; a playback failure is swallowed and cannot alter
the result), and the NOTIFIED transition always completes: every announced
post ends with `notified = true` and its id in the Ledger. -/
theorem tick_audio_unconditional (now : Int) (v : Bool) (posts : List Post)
    (ledger : List (Option String)) :
    checkAlarms now v posts ledger = checkAlarms now true posts ledger ∧
    ∀ a ∈ (checkAlarms now v posts ledger).anns,
      a.audioAttempted = true ∧
      a.postId ∈ (checkAlarms now v posts ledger).ledger ∧
      ∃ q ∈ (checkAlarms now v posts ledger).posts, q.id = a.postId ∧ q.notified = true := by
  refine ⟨rfl, ?_⟩
  intro a ha
  rw [checkAlarms_anns_eq] at ha
  obtain ⟨h1, h2, ⟨q, hq, hq1, hq2⟩, _⟩ := go_anns now posts ledger a ha
  refine ⟨h1, ?_, ?_⟩
  · rw [checkAlarms_ledger_eq]
    exact List.mem_append.mpr (Or.inr h2)
  · rw [checkAlarms_posts_eq]
    exact ⟨q, hq, hq1, hq2⟩

/-- Witness for C7 (amended) at a concrete input: the fired post's
announcement attempts audio even with `visible = false`, and its id is in the
ledger afterwards. -/
theorem tick_audio_unconditional_witness :
    (mkAnn pA).audioAttempted = true ∧
    (mkAnn pA).postId ∈ (checkAlarms 31000 false [pA] []).ledger := by
  have h := tick_audio_unconditional 31000 false [pA] []
  obtain ⟨h1, h2, _⟩ := h.2 (mkAnn pA) (by decide)
  exact ⟨h1, h2⟩

/-- Counterexample to C5: a submission whose time equals the clock exactly is
accepted (`time < new Date()` is a strict comparison), not rejected. -/
theorem submit_accepts_time_equal_now_cex :
    (handleSubmit "a" (some 1000) 1000 none "n1" "bg-indigo-500" []).ok = true ∧
    (handleSubmit "a" (some 1000) 1000 none "n1" "bg-indigo-500" []).posts
      = [⟨some "n1", some "a", some 1000, false, some "bg-indigo-500"⟩] :=
  ⟨by decide, by decide⟩

/-- C5 (amended): `handleSubmit` rejects exactly when the text is
empty/whitespace-only, the time is missing, or the time is strictly before the
clock (a time equal to `now` is accepted); every rejection shows a user-facing
message and leaves the post list unchanged, and any post the submission adds
or rewrites has `notified = false`. -/
theorem submit_validation (input : String) (time : Option Int) (now : Int)
    (eid : Option String) (nid ncol : String) (posts : List Post) :
    ((handleSubmit input time now eid nid ncol posts).ok = false ↔
      (jsTrim input = "" ∨ time = none ∨ ∃ t, time = some t ∧ t < now)) ∧
    ((handleSubmit input time now eid nid ncol posts).ok = false →
      (handleSubmit input time now eid nid ncol posts).posts = posts ∧
      (handleSubmit input time now eid nid ncol posts).message ∈
        (["Post content cannot be empty", "Please select a date and time",
          "Please select a future date and time"] : List String)) ∧
    (∀ q ∈ (handleSubmit input time now eid nid ncol posts).posts,
      q ∉ posts → q.notified = false) := by
  by_cases h1 : jsTrim input = ""
  · refine ⟨by simp [handleSubmit, h1], by simp [handleSubmit, h1], ?_⟩
    intro q hq hq'
    simp only [handleSubmit, if_pos h1] at hq
    exact absurd hq hq'
  · cases time with
    | none =>
      refine ⟨by simp [handleSubmit, h1], by simp [handleSubmit, h1], ?_⟩
      intro q hq hq'
      simp only [handleSubmit, if_neg h1] at hq
      exact absurd hq hq'
    | some t =>
      by_cases h2 : t < now
      · refine ⟨?_, by simp [handleSubmit, h1, h2], ?_⟩
        · simp only [handleSubmit, if_neg h1, if_pos h2]
          simp [h2]
        · intro q hq hq'
          simp only [handleSubmit, if_neg h1, if_pos h2] at hq
          exact absurd hq hq'
      · cases eid with
        | none =>
          refine ⟨?_, ?_, ?_⟩
          · simp only [handleSubmit, if_neg h1, if_neg h2]
            simp [h1, h2]
          · intro hok
            simp only [handleSubmit, if_neg h1, if_neg h2] at hok
            exact absurd hok (by decide)
          · intro q hq hq'
            simp only [handleSubmit, if_neg h1, if_neg h2] at hq
            rcases List.mem_cons.mp hq with rfl | hq
            · rfl
            · exact absurd hq hq'
        | some e =>
          refine ⟨?_, ?_, ?_⟩
          · simp only [handleSubmit, if_neg h1, if_neg h2]
            simp [h1, h2]
          · intro hok
            simp only [handleSubmit, if_neg h1, if_neg h2] at hok
            exact absurd hok (by decide)
          · intro q hq hq'
            simp only [handleSubmit, if_neg h1, if_neg h2] at hq
            obtain ⟨p, hp, hpq⟩ := List.mem_map.mp hq
            by_cases hpe : p.id = some e
            · rw [← hpq, if_pos hpe]
            · rw [if_neg hpe] at hpq
              rw [← hpq] at hq'
              exact absurd hp hq'

/-- Witness for C5 (amended) at a concrete input: a strictly past time is
rejected and leaves the (empty) post list unchanged. -/
theorem submit_validation_witness :
    (handleSubmit "a" (some 999) 1000 none "n" "c" []).posts = [] := by
  have h := submit_validation "a" (some 999) 1000 none "n" "c" []
  exact (h.2.1 (h.1.mpr (Or.inr (Or.inr ⟨999, rfl, by decide⟩)))).1

/-- Counterexample to C3: a stored post 5 minutes in the past at load time
(scheduled 700000, load clock 1000000) is dropped from the collection
entirely, so the `past()` partition after load is empty — the post does NOT
remain visible in the past view. -/
theorem load_past_post_not_in_past_view_cex :
    pPast.time = some 700000 ∧ (700000 : Int) ≤ 1000000 ∧
    (loadPosts pick0 (some (Except.ok [pPast])) 1000000).posts = [] ∧
    pastPosts 1000000 (loadPosts pick0 (some (Except.ok [pPast])) 1000000).posts
      = [] :=
  ⟨rfl, by decide, by decide, by decide⟩

/-- C3 (amended): a stored post whose time is not in the future of the load
clock is excluded from the loaded collection entirely: every loaded post has a
strictly future time, the `past()` partition right after load is empty, no
loaded post carries the dropped post's time, and every tick announcement
originates from a member of the loaded collection (so the dropped post is
never announced). -/
theorem load_excludes_past_entirely (pick : Nat → String) (raws : List Post)
    (now : Int) (p : Post) (t : Int) (_hp : p ∈ raws) (ht : p.time = some t)
    (hle : t ≤ now) :
    (∀ q ∈ (loadPosts pick (some (Except.ok raws)) now).posts,
      ∃ t', q.time = some t' ∧ now < t') ∧
    pastPosts now (loadPosts pick (some (Except.ok raws)) now).posts = [] ∧
    (∀ q ∈ (loadPosts pick (some (Except.ok raws)) now).posts, q.time ≠ p.time) ∧
    (∀ (now' : Int) (v : Bool) (ledger : List (Option String)),
      ∀ a ∈ (checkAlarms now' v (loadPosts pick (some (Except.ok raws)) now).posts
          ledger).anns,
        ∃ q ∈ (loadPosts pick (some (Except.ok raws)) now).posts, a = mkAnn q) := by
  have hfut : ∀ q ∈ (loadPosts pick (some (Except.ok raws)) now).posts,
      ∃ t', q.time = some t' ∧ now < t' := by
    intro q hq
    have h2 := ((loadPosts_mem_iff pick raws now q).mp hq).2
    cases hqt : q.time with
    | none => simp [futureB, hqt] at h2
    | some t' =>
      refine ⟨t', rfl, ?_⟩
      simpa [futureB, hqt] using h2
  refine ⟨hfut, ?_, ?_, ?_⟩
  · apply List.filter_eq_nil_iff.mpr
    intro q hq
    obtain ⟨t', hqt, hlt⟩ := hfut q hq
    simp [pastB, hqt]
    linarith
  · intro q hq hqt
    obtain ⟨t', hqt', hlt⟩ := hfut q hq
    rw [hqt, ht] at hqt'
    have : t = t' := by
      simpa using hqt'
    omega
  · intro now' v ledger a ha
    rw [checkAlarms_anns_eq] at ha
    obtain ⟨_, _, _, hq⟩ := go_anns now' _ ledger a ha
    exact hq

/-- Witness for C3 (amended) at a concrete input: loading a store holding only
the 5-minutes-stale post leaves the past partition empty. -/
theorem load_excludes_past_entirely_witness :
    pastPosts 1000000
      (loadPosts pick0 (some (Except.ok [pPast, pA])) 1000000).posts = [] :=
  (load_excludes_past_entirely pick0 [pPast, pA] 1000000 pPast 700000
    (by simp) rfl (by decide)).2.1

/-- C8: a malformed persisted payload makes `loadPosts` fall into its `catch`:
the collection stays empty and the warning toast fires; the model is a total
function, so nothing escapes the boundary. -/
theorem load_fails_soft (pick : Nat → String) (now : Int) :
    loadPosts pick (some (Except.error ())) now = ⟨[], true⟩ := rfl

/-- Counterexample to C6: saving a list containing a post whose time is in the
past of the load clock and loading it back yields the empty collection — `id`,
`text` and `time` of that post are not preserved by the round trip. -/
theorem roundtrip_drops_past_cex :
    pX.id = some "x" ∧
    (loadPosts pick0 (save [pX]) 1000).posts = [] :=
  ⟨rfl, by decide⟩

/-- C6 (amended): the save/load round trip preserves `id`, `text` and `time`
of every post whose time is strictly in the future of the load clock (posts
with past, equal-to-now, or missing times are dropped, and the order is
re-sorted ascending by time), and every post in the loaded result has
`notified = false`. -/
theorem save_load_roundtrip (pick : Nat → String) (posts : List Post)
    (now : Int) :
    (∀ q ∈ (loadPosts pick (save posts) now).posts, q.notified = false) ∧
    (∀ p ∈ posts, ∀ t, p.time = some t → now < t →
      ∃ q ∈ (loadPosts pick (save posts) now).posts,
        q.id = p.id ∧ q.text = p.text ∧ q.time = p.time ∧ q.notified = false) := by
  constructor
  · intro q hq
    have h := ((loadPosts_mem_iff pick posts now q).mp hq).1
    exact (withColors_forall pick posts 0 q h).1
  · intro p hp t ht hlt
    obtain ⟨j, q, hq, h1, h2, h3, h4, _⟩ := withColors_mem pick posts 0 p hp
    refine ⟨q, ?_, h1, h2, h3, h4⟩
    apply (loadPosts_mem_iff pick posts now q).mpr
    refine ⟨hq, ?_⟩
    simp [futureB, h3, ht]
    exact hlt

/-- Witness for C6 (amended) at a concrete input: the armed sample post
survives the round trip with its fields intact and `notified = false`. -/
theorem save_load_roundtrip_witness :
    ∃ q ∈ (loadPosts pick0 (save [pA]) 0).posts,
      q.id = some "a" ∧ q.text = some "ship release" ∧ q.time = some 100000 ∧
        q.notified = false := by
  have h := save_load_roundtrip pick0 [pA] 0
  simpa using h.2 pA (by simp) 100000 rfl (by decide)

/-- Counterexample to C9: a stored record missing `id` and `text` (but with a
valid future time) is NOT rejected or skipped — it is admitted into the loaded
collection (with a defaulted colour). -/
theorem load_admits_missing_id_cex :
    rNoId.id = none ∧ rNoId.text = none ∧
    (loadPosts pick0 (some (Except.ok [rNoId])) 1000000).posts
      = [⟨none, none, some 2000000, false, some "bg-indigo-500"⟩] :=
  ⟨rfl, rfl, by decide⟩

/-- C9 (amended): load assigns a colour to every admitted record (the i-th
random palette draw when `colorTag` is missing or empty) and excludes records
whose `time` is missing or not strictly future (an invalid date fails the
`> now` filter), but records missing `id` or `text` are admitted unchanged —
there is no per-field validation. -/
theorem load_tolerates_missing_fields (pick : Nat → String) (raws : List Post)
    (now : Int) :
    (∀ q ∈ (loadPosts pick (some (Except.ok raws)) now).posts,
      (∃ t, q.time = some t ∧ now < t) ∧ q.color.isSome = true) ∧
    (∀ p ∈ raws, ∀ t, p.time = some t → now < t →
      ∃ q ∈ (loadPosts pick (some (Except.ok raws)) now).posts,
        q.id = p.id ∧ q.text = p.text ∧ q.time = p.time ∧
        ∃ j, q.color = some (jsOrColor p.color (pick j))) := by
  constructor
  · intro q hq
    obtain ⟨hw, hf⟩ := (loadPosts_mem_iff pick raws now q).mp hq
    constructor
    · cases hqt : q.time with
      | none => simp [futureB, hqt] at hf
      | some t' =>
        refine ⟨t', rfl, ?_⟩
        simpa [futureB, hqt] using hf
    · exact (withColors_forall pick raws 0 q hw).2.1
  · intro p hp t ht hlt
    obtain ⟨j, q, hq, h1, h2, h3, _, h5⟩ := withColors_mem pick raws 0 p hp
    refine ⟨q, ?_, h1, h2, h3, j, h5⟩
    apply (loadPosts_mem_iff pick raws now q).mpr
    refine ⟨hq, ?_⟩
    simp [futureB, h3, ht]
    exact hlt

/-- Witness for C9 (amended) at a concrete input: the id-less record is
admitted with the defaulted palette colour. -/
theorem load_tolerates_missing_fields_witness :
    ∃ q ∈ (loadPosts pick0 (some (Except.ok [rNoId])) 1000000).posts,
      q.id = none ∧ q.color = some "bg-indigo-500" := by
  have h := load_tolerates_missing_fields pick0 [rNoId] 1000000
  obtain ⟨q, hq, h1, _, _, _, h5⟩ := h.2 rNoId (by simp) 2000000 rfl (by decide)
  exact ⟨q, hq, h1, h5⟩

end PostScheduler
